import Mathlib

/-!
Shallow embedding of the core state and estimator logic of
`bot_pb_estimator.py`: a per-session bounded rolling history of game
outcomes (Player/Banker/Tie) with append/undo/reset, descriptive
statistics (counts, percentages, streak) and a Dirichlet-smoothed
next-outcome estimate over a recent window.

Histories are modelled as Lean lists (oldest first), the Python
`deque(maxlen=MAX_HISTORY)` as a list append that drops the head at
capacity, and floating-point probabilities as exact rationals (all
numerators and denominators involved are tiny, so distinct rational
values never collide as doubles and the `max` comparisons agree).
-/

namespace BotPB

/-- The three canonical outcome symbols `"P"`, `"B"`, `"T"`. -/
inductive Symbol : Type
  | P
  | B
  | T
deriving DecidableEq, Repr

/-- `UserState` dataclass: `history: deque`, `last_added: str | None`. -/
structure UserState : Type where
  history : List Symbol
  last_added : Option Symbol
deriving DecidableEq, Repr

def MAX_HISTORY : Nat := 300

def MIN_FOR_PRED : Nat := 10

def PRED_WINDOW : Nat := 15

/-- The state `get_state` registers for a fresh chat id:
`UserState(history=deque(maxlen=MAX_HISTORY))`, `last_added = None`. -/
def initialState : UserState := ⟨[], none⟩

/-- One `history.append(r)` on a `deque(maxlen=MAX_HISTORY)`: pushes at the
tail and, when the deque is full, silently discards the oldest element. -/
def dequeAppend (h : List Symbol) (s : Symbol) : List Symbol :=
  if h.length < MAX_HISTORY then h ++ [s] else h.tail ++ [s]

/-- The state mutation of `handle` on a recognised symbol `r`:
`st.history.append(r); st.last_added = r`. -/
def handle_append (st : UserState) (r : Symbol) : UserState :=
  ⟨dequeAppend st.history r, some r⟩

/-- A whole sequence of recognised inputs fed to `handle` in order. -/
def appendAll (st : UserState) (xs : List Symbol) : UserState :=
  xs.foldl handle_append st

/-- The backward scan of `streak`: starting from the element just below the
tail and moving toward the head, count consecutive elements equal to `last`
and stop at the first mismatch.  The scanned list is the history reversed
(newest first), so plain structural recursion mirrors the Python loop. -/
def streakAux (last : Symbol) : List Symbol → Nat
  | [] => 0
  | x :: xs => if x = last then streakAux last xs + 1 else 0

/-- `streak(history)`: `(None, 0)` on an empty history, otherwise the last
element together with the length of the run of that element at the tail
(the `1` is the Python initialisation `s = 1` counting `last` itself). -/
def streak (h : List Symbol) : Option Symbol × Nat :=
  match h.reverse with
  | [] => (none, 0)
  | last :: rest => (some last, streakAux last rest + 1)

/-- The counts dict `counts_from(seq)`: occurrences of each symbol. -/
structure Counts : Type where
  P : Nat
  B : Nat
  T : Nat
deriving DecidableEq, Repr

def counts_from (seq : List Symbol) : Counts :=
  ⟨seq.count Symbol.P, seq.count Symbol.B, seq.count Symbol.T⟩

/-- A Dirichlet prior `alpha` over the three classes. -/
structure Alpha : Type where
  P : ℚ
  B : ℚ
  T : ℚ
deriving DecidableEq, Repr

/-- The default prior `{"P": 1.0, "B": 1.0, "T": 1.0}`. -/
def uniformAlpha : Alpha := ⟨1, 1, 1⟩

/-- The probability dict returned by `dirichlet_posterior_mean`. -/
structure Probs : Type where
  P : ℚ
  B : ℚ
  T : ℚ
deriving DecidableEq, Repr

/-- `dirichlet_posterior_mean(counts, alpha)`:
`{k: (alpha[k] + counts.get(k, 0)) / (sum(alpha.values()) + total) for k in alpha}`
with `total = sum(counts.values())`. -/
def dirichlet_posterior_mean (c : Counts) (alpha : Alpha) : Probs :=
  let total : ℚ := (c.P : ℚ) + (c.B : ℚ) + (c.T : ℚ)
  let denom : ℚ := alpha.P + alpha.B + alpha.T + total
  ⟨(alpha.P + (c.P : ℚ)) / denom,
   (alpha.B + (c.B : ℚ)) / denom,
   (alpha.T + (c.T : ℚ)) / denom⟩

/-- Look a symbol up in the probability dict. -/
def probOf (p : Probs) : Symbol → ℚ
  | Symbol.P => p.P
  | Symbol.B => p.B
  | Symbol.T => p.T

/-- `max(post, key=post.get)`: Python `max` iterates the dict in insertion
order (`"P"`, `"B"`, `"T"`, inherited from `alpha`) and replaces the
current best only on a strictly greater key, so the first maximum wins. -/
def pickMax (post : Probs) : Symbol :=
  List.foldl (fun best k => if probOf post best < probOf post k then k else best)
    Symbol.P [Symbol.B, Symbol.T]

/-- What `next_prediction` sends: either the "not enough data" message
carrying the current count, or the window, probabilities and pick. -/
inductive PredictionResult : Type
  | insufficient (current : Nat)
  | ok (window : List Symbol) (post : Probs) (pick : Symbol)
deriving DecidableEq, Repr

/-- `next_prediction(chat_id)` on the session's state: below
`MIN_FOR_PRED` it reports the current count, otherwise it takes
`window = h[-min(PRED_WINDOW, n):]`, computes the smoothed posterior with
the uniform prior, and picks the first maximum. -/
def next_prediction (st : UserState) : PredictionResult :=
  let h := st.history
  let n := h.length
  if n < MIN_FOR_PRED then
    PredictionResult.insufficient n
  else
    let window := h.drop (n - min PRED_WINDOW n)
    let c := counts_from window
    let post := dirichlet_posterior_mean c ⟨1, 1, 1⟩
    PredictionResult.ok window post (pickMax post)

/-- The numbers interpolated into the stats message. -/
structure StatsReport : Type where
  n : Nat
  c : Counts
  pctP : ℚ
  pctB : ℚ
  pctT : ℚ
  streakSym : Option Symbol
  streakLen : Nat
  last20 : List Symbol
deriving DecidableEq, Repr

/-- What `send_stats` sends: the "no data" message or the report. -/
inductive StatsOutput : Type
  | noData
  | report (r : StatsReport)
deriving DecidableEq, Repr

/-- `send_stats(chat_id)` on the session's state: empty history gets the
"no data" message; otherwise counts, percentages `(c[k]/n)*100`, the
streak, and the last 20 entries `h[-20:]`. -/
def send_stats (st : UserState) : StatsOutput :=
  let h := st.history
  let n := h.length
  if n = 0 then StatsOutput.noData
  else
    let c := counts_from h
    let sk := streak h
    StatsOutput.report
      ⟨n, c,
       ((c.P : ℚ) / (n : ℚ)) * 100,
       ((c.B : ℚ) / (n : ℚ)) * 100,
       ((c.T : ℚ) / (n : ℚ)) * 100,
       sk.1, sk.2,
       h.drop (n - min 20 n)⟩

/-- Outcome of `do_undo`: the "nothing to undo" message or the removed
symbol. -/
inductive UndoResult : Type
  | nothing
  | removed (s : Symbol)
deriving DecidableEq, Repr

/-- `do_undo(chat_id)` on the session's state: on an empty history it
reports "nothing to undo" and leaves the state alone; otherwise
`removed = st.history.pop(); st.last_added = None`. -/
def do_undo (st : UserState) : UndoResult × UserState :=
  match st.history.getLast? with
  | none => (UndoResult.nothing, st)
  | some s => (UndoResult.removed s, ⟨st.history.dropLast, none⟩)

/-- `do_reset(chat_id)`: `st.history.clear(); st.last_added = None`. -/
def do_reset (_st : UserState) : UserState := ⟨[], none⟩

/-- The fixed tie-break priority order Player > Banker > Tie
(lower rank = higher priority). -/
def priority : Symbol → Nat
  | Symbol.P => 0
  | Symbol.B => 1
  | Symbol.T => 2

/-- Symbol lookup in the counts dict. -/
def countOf (c : Counts) : Symbol → Nat
  | Symbol.P => c.P
  | Symbol.B => c.B
  | Symbol.T => c.T

/-- The last `k` elements of a list (all of it when `k ≥ length`). -/
def lastN (k : Nat) (l : List Symbol) : List Symbol :=
  l.drop (l.length - k)

/-! ### Helper lemmas -/

theorem count_sum (l : List Symbol) :
    l.count Symbol.P + l.count Symbol.B + l.count Symbol.T = l.length := by
  induction l with
  | nil => rfl
  | cons x xs ih =>
    cases x <;> simp [List.count_cons, ih.symm] <;> omega

theorem counts_from_total (w : List Symbol) :
    (counts_from w).P + (counts_from w).B + (counts_from w).T = w.length :=
  count_sum w

theorem lastN_length_le (k : Nat) (l : List Symbol) : (lastN k l).length ≤ k := by
  simp only [lastN, List.length_drop]
  omega

theorem dequeAppend_eq_lastN (h : List Symbol) (s : Symbol)
    (hle : h.length ≤ MAX_HISTORY) :
    dequeAppend h s = lastN MAX_HISTORY (h ++ [s]) := by
  have h300 : MAX_HISTORY = 300 := rfl
  unfold dequeAppend lastN
  by_cases hlt : h.length < MAX_HISTORY
  · rw [if_pos hlt]
    have h0 : (h ++ [s]).length - MAX_HISTORY = 0 := by
      simp only [List.length_append, List.length_singleton]
      omega
    rw [h0, List.drop_zero]
  · rw [if_neg hlt]
    have h1 : (h ++ [s]).length - MAX_HISTORY = 1 := by
      simp only [List.length_append, List.length_singleton]
      omega
    rw [h1, List.drop_append_of_le_length (by omega), List.drop_one]

theorem lastN_append_lastN (k : Nat) (l ys : List Symbol) :
    lastN k (lastN k l ++ ys) = lastN k (l ++ ys) := by
  unfold lastN
  rw [← List.drop_append_of_le_length (by omega : l.length - k ≤ l.length),
    List.drop_drop]
  congr 1
  simp only [List.length_drop, List.length_append]
  omega

theorem appendAll_history (ys : List Symbol) :
    ∀ st : UserState, st.history.length ≤ MAX_HISTORY →
      (appendAll st ys).history = lastN MAX_HISTORY (st.history ++ ys) := by
  induction ys with
  | nil =>
    intro st hst
    simp only [appendAll, List.foldl_nil, List.append_nil, lastN,
      Nat.sub_eq_zero_of_le hst, List.drop_zero]
  | cons y ys ih =>
    intro st hst
    have h1 : (handle_append st y).history = lastN MAX_HISTORY (st.history ++ [y]) :=
      dequeAppend_eq_lastN _ _ hst
    have h2 : (handle_append st y).history.length ≤ MAX_HISTORY := by
      rw [h1]; exact lastN_length_le _ _
    calc (appendAll st (y :: ys)).history
      = (appendAll (handle_append st y) ys).history := rfl
      _ = lastN MAX_HISTORY ((handle_append st y).history ++ ys) := ih _ h2
      _ = lastN MAX_HISTORY (lastN MAX_HISTORY (st.history ++ [y]) ++ ys) := by rw [h1]
      _ = lastN MAX_HISTORY ((st.history ++ [y]) ++ ys) := lastN_append_lastN _ _ _
      _ = lastN MAX_HISTORY (st.history ++ y :: ys) := by simp

theorem drop_eq_reverse_take (l : List Symbol) (k : Nat) :
    l.drop (l.length - k) = (l.reverse.take k).reverse := by
  rw [List.reverse_take, List.reverse_reverse, List.length_reverse]

theorem take_eq_reverse_drop (l : List Symbol) (k : Nat) :
    l.take (l.length - k) = (l.reverse.drop k).reverse := by
  rw [List.reverse_drop, List.reverse_reverse, List.length_reverse]

theorem streakAux_le (a : Symbol) (l : List Symbol) : streakAux a l ≤ l.length := by
  induction l with
  | nil => simp [streakAux]
  | cons x xs ih =>
    simp only [streakAux, List.length_cons]
    split <;> omega

theorem streakAux_succ (a : Symbol) (xs : List Symbol) :
    streakAux a (a :: xs) = streakAux a xs + 1 := by
  simp [streakAux]

theorem streakAux_zero (a x : Symbol) (xs : List Symbol) (hx : x ≠ a) :
    streakAux a (x :: xs) = 0 := by
  simp [streakAux, hx]

theorem streakAux_take (a : Symbol) (l : List Symbol) :
    l.take (streakAux a l) = List.replicate (streakAux a l) a := by
  induction l with
  | nil => simp [streakAux]
  | cons x xs ih =>
    by_cases hx : x = a
    · subst hx
      rw [streakAux_succ, List.take_succ_cons, ih, List.replicate_succ]
    · rw [streakAux_zero a x xs hx]
      simp

theorem streakAux_boundary (a : Symbol) (l : List Symbol) :
    streakAux a l = l.length ∨ ∃ b, b ≠ a ∧ l[streakAux a l]? = some b := by
  induction l with
  | nil => left; rfl
  | cons x xs ih =>
    by_cases hx : x = a
    · subst hx
      rw [streakAux_succ, List.length_cons]
      rcases ih with h | ⟨b, hb, hbg⟩
      · left; omega
      · right
        exact ⟨b, hb, by simpa using hbg⟩
    · right
      refine ⟨x, hx, ?_⟩
      rw [streakAux_zero a x xs hx]
      simp

theorem pickMax_argmax_priority (post : Probs) :
    (∀ s : Symbol, probOf post s ≤ probOf post (pickMax post))
    ∧ (∀ s : Symbol, probOf post s = probOf post (pickMax post) →
        priority (pickMax post) ≤ priority s) := by
  by_cases h1 : post.P < post.B
  · by_cases h2 : post.B < post.T
    · have hp : pickMax post = Symbol.T := by
        simp [pickMax, probOf, h1, h2]
      rw [hp]
      refine ⟨?_, ?_⟩
      · intro s; cases s <;> simp only [probOf] <;> linarith
      · intro s hs
        cases s
        · exfalso; simp only [probOf] at hs; linarith
        · exfalso; simp only [probOf] at hs; linarith
        · exact le_refl _
    · have h2' : post.T ≤ post.B := not_lt.mp h2
      have hp : pickMax post = Symbol.B := by
        simp [pickMax, probOf, h1, h2]
      rw [hp]
      refine ⟨?_, ?_⟩
      · intro s; cases s <;> simp only [probOf] <;> linarith
      · intro s hs
        cases s
        · exfalso; simp only [probOf] at hs; linarith
        · exact le_refl _
        · decide
  · have h1' : post.B ≤ post.P := not_lt.mp h1
    by_cases h3 : post.P < post.T
    · have hp : pickMax post = Symbol.T := by
        simp [pickMax, probOf, h1, h3]
      rw [hp]
      refine ⟨?_, ?_⟩
      · intro s; cases s <;> simp only [probOf] <;> linarith
      · intro s hs
        cases s
        · exfalso; simp only [probOf] at hs; linarith
        · exfalso; simp only [probOf] at hs; linarith
        · exact le_refl _
    · have h3' : post.T ≤ post.P := not_lt.mp h3
      have hp : pickMax post = Symbol.P := by
        simp [pickMax, probOf, h1, h3]
      rw [hp]
      refine ⟨?_, ?_⟩
      · intro s; cases s <;> simp only [probOf] <;> linarith
      · intro s _
        cases s
        · exact le_refl _
        · decide
        · decide

/-! ### Claims -/

/-- C1: for every history with at least `MIN_FOR_PRED = 10` elements,
`next_prediction` takes as its window the last `min(15, len(history))`
elements, and the smoothed probability it computes for each symbol `s`
equals `(prior[s] + count of s in window) / (sum of priors + window length)`
with the uniform prior of `1.0` per symbol, i.e. `(1 + count) / (3 + len)`. -/
theorem C1_window_and_smoothing (st : UserState)
    (h10 : MIN_FOR_PRED ≤ st.history.length) :
    ∃ w post pick, next_prediction st = PredictionResult.ok w post pick
      ∧ w = ((st.history.reverse.take (min PRED_WINDOW st.history.length)).reverse : List Symbol)
      ∧ ∀ s : Symbol,
          probOf post s = (1 + (w.count s : ℚ)) / (3 + (w.length : ℚ)) := by
  refine ⟨st.history.drop (st.history.length - min PRED_WINDOW st.history.length),
    dirichlet_posterior_mean
      (counts_from (st.history.drop (st.history.length - min PRED_WINDOW st.history.length)))
      ⟨1, 1, 1⟩,
    pickMax (dirichlet_posterior_mean
      (counts_from (st.history.drop (st.history.length - min PRED_WINDOW st.history.length)))
      ⟨1, 1, 1⟩), ?_, ?_, ?_⟩
  · simp only [next_prediction]
    rw [if_neg (not_lt.mpr h10)]
  · exact drop_eq_reverse_take st.history (min PRED_WINDOW st.history.length)
  · intro s
    have htot := counts_from_total
      (st.history.drop (st.history.length - min PRED_WINDOW st.history.length))
    have htotQ : (((counts_from (st.history.drop (st.history.length - min PRED_WINDOW st.history.length))).P : ℚ)
        + ((counts_from (st.history.drop (st.history.length - min PRED_WINDOW st.history.length))).B : ℚ)
        + ((counts_from (st.history.drop (st.history.length - min PRED_WINDOW st.history.length))).T : ℚ))
        = ((st.history.drop (st.history.length - min PRED_WINDOW st.history.length)).length : ℚ) := by
      exact_mod_cast congrArg (Nat.cast : Nat → ℚ) htot
    cases s <;>
      simp only [dirichlet_posterior_mean, probOf, counts_from] <;>
      rw [counts_from] at htotQ <;>
      rw [htotQ] <;>
      ring_nf

/-- C1 witness at the concrete history of ten `P`s. -/
theorem C1_window_and_smoothing_witness :
    ∃ w post pick,
      next_prediction ⟨List.replicate 10 Symbol.P, none⟩ = PredictionResult.ok w post pick
      ∧ w = (((List.replicate 10 Symbol.P).reverse.take
          (min PRED_WINDOW (List.replicate 10 Symbol.P).length)).reverse : List Symbol)
      ∧ ∀ s : Symbol,
          probOf post s = (1 + (w.count s : ℚ)) / (3 + (w.length : ℚ)) :=
  C1_window_and_smoothing ⟨List.replicate 10 Symbol.P, none⟩ (by decide)

/-- C2: a session's history never exceeds `MAX_HISTORY = 300` elements
after any sequence of appends, and eviction is FIFO: appending 301 symbols
to a fresh session leaves exactly the last 300 appended symbols, in
insertion order, with the first appended symbol dropped. -/
theorem C2_history_bounded_fifo :
    (∀ xs : List Symbol, (appendAll initialState xs).history.length ≤ MAX_HISTORY)
    ∧ (∀ ys : List Symbol, ys.length = 301 →
        (appendAll initialState ys).history = ys.tail
        ∧ (appendAll initialState ys).history.length = 300) := by
  have base : ∀ xs : List Symbol, (appendAll initialState xs).history = lastN MAX_HISTORY xs := by
    intro xs
    have h := appendAll_history xs initialState (by simp [initialState])
    simpa [initialState] using h
  constructor
  · intro xs
    rw [base]
    exact lastN_length_le _ _
  · intro ys hlen
    have h300 : MAX_HISTORY = 300 := rfl
    have h1 : (appendAll initialState ys).history = ys.tail := by
      rw [base, lastN, hlen, h300]
      norm_num
    refine ⟨h1, ?_⟩
    rw [h1, List.length_tail, hlen]

/-- C2 witness: appending 301 concrete symbols to a fresh session. -/
theorem C2_history_bounded_fifo_witness :
    (appendAll initialState (List.replicate 301 Symbol.P)).history
      = (List.replicate 301 Symbol.P).tail :=
  (C2_history_bounded_fifo.2 (List.replicate 301 Symbol.P) (by rw [List.length_replicate])).1

/-- C3: on a predictable history the pick attains the highest smoothed
probability, and among symbols exactly tied for the highest probability it
is the one of highest fixed priority (Player > Banker > Tie). -/
theorem C3_pick_strict_max_priority (st : UserState)
    (h10 : MIN_FOR_PRED ≤ st.history.length) :
    ∃ w post pick, next_prediction st = PredictionResult.ok w post pick
      ∧ (∀ s : Symbol, probOf post s ≤ probOf post pick)
      ∧ (∀ s : Symbol, probOf post s = probOf post pick → priority pick ≤ priority s) := by
  refine ⟨st.history.drop (st.history.length - min PRED_WINDOW st.history.length),
    dirichlet_posterior_mean
      (counts_from (st.history.drop (st.history.length - min PRED_WINDOW st.history.length)))
      ⟨1, 1, 1⟩,
    pickMax (dirichlet_posterior_mean
      (counts_from (st.history.drop (st.history.length - min PRED_WINDOW st.history.length)))
      ⟨1, 1, 1⟩), ?_, ?_, ?_⟩
  · simp only [next_prediction]
    rw [if_neg (not_lt.mpr h10)]
  · exact (pickMax_argmax_priority _).1
  · exact (pickMax_argmax_priority _).2

/-- C3 witness at the concrete history of ten `P`s. -/
theorem C3_pick_strict_max_priority_witness :
    ∃ w post pick,
      next_prediction ⟨List.replicate 10 Symbol.P, none⟩ = PredictionResult.ok w post pick
      ∧ (∀ s : Symbol, probOf post s ≤ probOf post pick)
      ∧ (∀ s : Symbol, probOf post s = probOf post pick → priority pick ≤ priority s) :=
  C3_pick_strict_max_priority ⟨List.replicate 10 Symbol.P, none⟩ (by decide)

/-- C4: `next_prediction` reports insufficient data, carrying the current
element count, exactly when the history length is below `MIN_FOR_PRED = 10`
(no prediction is substituted); in particular the 6-entry history
`[P,P,B,B,B,T]` yields `insufficient 6`. -/
theorem C4_insufficient_iff :
    (∀ st : UserState,
      ((∃ k, next_prediction st = PredictionResult.insufficient k)
          ↔ st.history.length < MIN_FOR_PRED)
      ∧ (st.history.length < MIN_FOR_PRED →
          next_prediction st = PredictionResult.insufficient st.history.length))
    ∧ next_prediction ⟨[Symbol.P, Symbol.P, Symbol.B, Symbol.B, Symbol.B, Symbol.T], none⟩
        = PredictionResult.insufficient 6 := by
  have hlow : ∀ st : UserState, st.history.length < MIN_FOR_PRED →
      next_prediction st = PredictionResult.insufficient st.history.length := by
    intro st hlt
    simp only [next_prediction]
    rw [if_pos hlt]
  refine ⟨fun st => ⟨⟨?_, ?_⟩, hlow st⟩, ?_⟩
  · rintro ⟨k, hk⟩
    by_contra hge
    simp only [next_prediction] at hk
    rw [if_neg hge] at hk
    exact PredictionResult.noConfusion hk
  · intro hlt
    exact ⟨st.history.length, hlow st hlt⟩
  · exact hlow ⟨[Symbol.P, Symbol.P, Symbol.B, Symbol.B, Symbol.B, Symbol.T], none⟩ (by decide)

/-- C4 witness at a concrete one-entry history. -/
theorem C4_insufficient_iff_witness :
    next_prediction ⟨[Symbol.P], none⟩ = PredictionResult.insufficient 1 :=
  (C4_insufficient_iff.1 ⟨[Symbol.P], none⟩).2 (by decide)

/-- C5: `streak` of the empty sequence is `(none, 0)`; on a non-empty
sequence it returns the last element together with the length `k ≥ 1` of
the maximal run of that element ending at the tail: the last `k` elements
all equal the last element and the element just before the run (when the
run is not the whole sequence) differs.  E.g. `[P,B,B,B]` gives `(B, 3)`. -/
theorem C5_streak_tail_run :
    streak ([] : List Symbol) = (none, 0)
    ∧ (∀ (l : List Symbol) (hne : l ≠ []), ∃ last k,
        streak l = (some last, k)
        ∧ l.getLast hne = last
        ∧ 1 ≤ k ∧ k ≤ l.length
        ∧ l.drop (l.length - k) = List.replicate k last
        ∧ (k = l.length ∨ (l.take (l.length - k)).getLast? ≠ some last))
    ∧ streak [Symbol.P, Symbol.B, Symbol.B, Symbol.B] = (some Symbol.B, 3) := by
  refine ⟨rfl, ?_, by decide⟩
  intro l hne
  obtain ⟨a, rest, hrev⟩ :=
    List.exists_cons_of_ne_nil (show l.reverse ≠ [] by simp [hne])
  have hl : l = rest.reverse ++ [a] := by
    have h := congrArg List.reverse hrev
    simpa using h
  have hlen : l.length = rest.length + 1 := by
    rw [hl]; simp
  have hlast : l.getLast hne = a := by
    have h1 : l.getLast? = some (l.getLast hne) := List.getLast?_eq_getLast l hne
    have h2 : l.getLast? = some a := by rw [hl]; simp
    exact Option.some.inj (h1.symm.trans h2)
  have hstreak : streak l = (some a, streakAux a rest + 1) := by
    unfold streak
    rw [hrev]
  have hdrop : l.drop (l.length - (streakAux a rest + 1))
      = List.replicate (streakAux a rest + 1) a := by
    rw [drop_eq_reverse_take, hrev, List.take_succ_cons, streakAux_take,
      ← List.replicate_succ]
    simp
  have hbound : streakAux a rest + 1 = l.length
      ∨ (l.take (l.length - (streakAux a rest + 1))).getLast? ≠ some a := by
    rcases streakAux_boundary a rest with h | ⟨b, hb, hbg⟩
    · left; omega
    · right
      rw [take_eq_reverse_drop, hrev, List.drop_succ_cons,
        List.getLast?_reverse, List.head?_drop, hbg]
      simp [hb]
  have hle := streakAux_le a rest
  exact ⟨a, streakAux a rest + 1, hstreak, hlast, by omega,
    by omega, hdrop, hbound⟩

/-- C5 witness at the concrete sequence `[P,B,B,B]`. -/
theorem C5_streak_tail_run_witness :
    ∃ last k,
      streak [Symbol.P, Symbol.B, Symbol.B, Symbol.B] = (some last, k)
      ∧ ([Symbol.P, Symbol.B, Symbol.B, Symbol.B] : List Symbol).getLast (by decide) = last
      ∧ 1 ≤ k ∧ k ≤ ([Symbol.P, Symbol.B, Symbol.B, Symbol.B] : List Symbol).length
      ∧ ([Symbol.P, Symbol.B, Symbol.B, Symbol.B] : List Symbol).drop
          (([Symbol.P, Symbol.B, Symbol.B, Symbol.B] : List Symbol).length - k)
          = List.replicate k last
      ∧ (k = ([Symbol.P, Symbol.B, Symbol.B, Symbol.B] : List Symbol).length
          ∨ (([Symbol.P, Symbol.B, Symbol.B, Symbol.B] : List Symbol).take
              (([Symbol.P, Symbol.B, Symbol.B, Symbol.B] : List Symbol).length - k)).getLast?
              ≠ some last) :=
  C5_streak_tail_run.2.1 [Symbol.P, Symbol.B, Symbol.B, Symbol.B] (by decide)

/-- C6: for every window sequence, the three smoothed probabilities under
the uniform prior sum to exactly 1, and for the empty window each
probability is exactly 1/3. -/
theorem C6_probs_sum_one :
    (∀ seq : List Symbol,
      (dirichlet_posterior_mean (counts_from seq) uniformAlpha).P
        + (dirichlet_posterior_mean (counts_from seq) uniformAlpha).B
        + (dirichlet_posterior_mean (counts_from seq) uniformAlpha).T = 1)
    ∧ dirichlet_posterior_mean (counts_from []) uniformAlpha
        = ⟨1/3, 1/3, 1/3⟩ := by
  constructor
  · intro seq
    simp only [dirichlet_posterior_mean, uniformAlpha]
    have hpos : (0:ℚ) < 1 + 1 + 1
        + (((counts_from seq).P : ℚ) + ((counts_from seq).B : ℚ) + ((counts_from seq).T : ℚ)) := by
      positivity
    rw [div_add_div_same, div_add_div_same, div_eq_one_iff_eq (ne_of_gt hpos)]
    ring
  · norm_num [dirichlet_posterior_mean, counts_from, uniformAlpha]

/-- C7: on a history with room to append, undo immediately after
`append(s)` restores exactly the previous history, the length drops by 1
from the appended state, and the removed value equals `s`; undo on an
empty history reports the distinguishable "nothing to undo" outcome. -/
theorem C7_undo_append_roundtrip :
    (∀ (st : UserState) (s : Symbol), st.history.length < MAX_HISTORY →
      ∃ rest : UserState,
        do_undo (handle_append st s) = (UndoResult.removed s, rest)
        ∧ rest.history = st.history
        ∧ rest.history.length + 1 = (handle_append st s).history.length)
    ∧ (∀ st : UserState, st.history = [] →
        do_undo st = (UndoResult.nothing, st)) := by
  constructor
  · intro st s hroom
    have happ : (handle_append st s).history = st.history ++ [s] := by
      simp [handle_append, dequeAppend, if_pos hroom]
    refine ⟨⟨st.history, none⟩, ?_, rfl, ?_⟩
    · unfold do_undo
      rw [happ]
      simp
    · rw [happ]
      simp
  · intro st hempty
    simp [do_undo, hempty]

/-- C7 witness: append `B` to `[P]`, undo, and undo on the empty state. -/
theorem C7_undo_append_roundtrip_witness :
    (∃ rest : UserState,
      do_undo (handle_append ⟨[Symbol.P], none⟩ Symbol.B)
        = (UndoResult.removed Symbol.B, rest)
      ∧ rest.history = [Symbol.P]
      ∧ rest.history.length + 1 = (handle_append ⟨[Symbol.P], none⟩ Symbol.B).history.length)
    ∧ do_undo ⟨[], some Symbol.P⟩ = (UndoResult.nothing, ⟨[], some Symbol.P⟩) :=
  ⟨C7_undo_append_roundtrip.1 ⟨[Symbol.P], none⟩ Symbol.B (by decide),
   C7_undo_append_roundtrip.2 ⟨[], some Symbol.P⟩ rfl⟩

/-- C8: `counts_from` maps each of the three symbols to its exact number
of occurrences, maps symbols absent from the sequence to 0, and the three
counts sum to the sequence's length. -/
theorem C8_counts_exact (seq : List Symbol) :
    (∀ s : Symbol, countOf (counts_from seq) s = (seq.filter (fun x => x = s)).length)
    ∧ (∀ s : Symbol, ¬ s ∈ seq → countOf (counts_from seq) s = 0)
    ∧ countOf (counts_from seq) Symbol.P + countOf (counts_from seq) Symbol.B
        + countOf (counts_from seq) Symbol.T = seq.length := by
  refine ⟨?_, ?_, ?_⟩
  · intro s
    have hb : ∀ t : Symbol, seq.count t = (seq.filter (fun x => x = t)).length := by
      intro t
      rw [List.count_eq_countP, List.countP_eq_length_filter]
      rfl
    cases s <;> simp only [countOf, counts_from] <;> exact hb _
  · intro s hs
    cases s <;>
      · simp only [countOf, counts_from]
        exact List.count_eq_zero.mpr hs
  · exact count_sum seq

/-- C8 witness: `B` does not occur in `[P]`, so its count is 0. -/
theorem C8_counts_exact_witness :
    countOf (counts_from [Symbol.P]) Symbol.B = 0 :=
  (C8_counts_exact [Symbol.P]).2.1 Symbol.B (by decide)

/-- C9 counterexample: undo is claimed to change nothing but the history,
yet on the state with history `[P]` and `last_added = some P` it resets
`last_added` to `none`. -/
theorem C9_counterexample :
    ¬ ((do_undo ⟨[Symbol.P], some Symbol.P⟩).2.last_added
        = (⟨[Symbol.P], some Symbol.P⟩ : UserState).last_added) := by
  decide

/-- C9 (amended): on a non-empty history, undo removes (and returns)
exactly the most recently appended symbol — the rest of the history is
unchanged — and additionally resets the session's `last_added` field to
`none`; no other part of the session state changes. -/
theorem C9_undo_effects (st : UserState) (hne : st.history ≠ []) :
    ∃ (s : Symbol) (st2 : UserState),
      do_undo st = (UndoResult.removed s, st2)
      ∧ st.history = st2.history ++ [s]
      ∧ st2.last_added = none := by
  have h1 : st.history.getLast? = some (st.history.getLast hne) :=
    List.getLast?_eq_getLast _ hne
  refine ⟨st.history.getLast hne, ⟨st.history.dropLast, none⟩, ?_, ?_, rfl⟩
  · unfold do_undo
    rw [h1]
  · exact (List.dropLast_append_getLast hne).symm

/-- C9 witness at the state with history `[P, B]` and `last_added = some B`. -/
theorem C9_undo_effects_witness :
    ∃ (s : Symbol) (st2 : UserState),
      do_undo ⟨[Symbol.P, Symbol.B], some Symbol.B⟩ = (UndoResult.removed s, st2)
      ∧ (⟨[Symbol.P, Symbol.B], some Symbol.B⟩ : UserState).history = st2.history ++ [s]
      ∧ st2.last_added = none :=
  C9_undo_effects ⟨[Symbol.P, Symbol.B], some Symbol.B⟩ (by decide)

/-- C10: the statistics and prediction outputs depend only on the
history's contents: two session states with identical histories produce
identical stats reports (counts, percentages, streak, last-20 display)
and identical prediction results (window, smoothed probabilities, pick),
whatever their `last_added` fields hold. -/
theorem C10_outputs_ignore_last_added (st1 st2 : UserState)
    (h : st1.history = st2.history) :
    send_stats st1 = send_stats st2 ∧ next_prediction st1 = next_prediction st2 := by
  constructor
  · simp only [send_stats, h]
  · simp only [next_prediction, h]

/-- C10 witness: same one-entry history, different `last_added`. -/
theorem C10_outputs_ignore_last_added_witness :
    send_stats ⟨[Symbol.P], some Symbol.P⟩ = send_stats ⟨[Symbol.P], none⟩
    ∧ next_prediction ⟨[Symbol.P], some Symbol.P⟩ = next_prediction ⟨[Symbol.P], none⟩ :=
  C10_outputs_ignore_last_added ⟨[Symbol.P], some Symbol.P⟩ ⟨[Symbol.P], none⟩ rfl

end BotPB
